import Mathlib

/-!
Verification of the core of `wgd/alignment.py` (alignment-related tools of
the `wgd` package): back-translation of a gapped protein alignment into a
gapped nucleotide alignment, removal of gap-containing columns, pairwise
identity/coverage statistics, and the pipeline that sequences these steps.

Modelling conventions (shallow embedding of the Python source):

* A Python dict of sequences is an association list
  `List (String × List Char)` in insertion order.  Keys of an actual dict
  are unique; claims that depend on this carry a
  `(msa.map Prod.fst).Nodup` hypothesis.
* A Python string is its list of Unicode code points, `List Char`.
* Functions that return `None` or whose exceptions the caller observes
  return `Option`; exceptions caught inside a function are folded into the
  function's result, following the source's `try/except` blocks.
* Python `/` (float division) is modelled by exact division on `ℚ`.  Every
  numeric value the claims mention (`0.0`, `1.0`) is produced exactly by
  the corresponding IEEE-754 operations (`x/x = 1.0` exactly, and the
  fallback literal `[0, 0]`), so the rational model and the float code
  agree on those values.
* `_strip_gaps` mutates its argument dict in place; the state of the
  argument after the call is modelled explicitly by `stripGapsPost`.
* The pipeline's protein-alignment source (a FASTA file read by the
  external reader `read_fasta`) is modelled as an `Option` alignment:
  `none` when `os.path.isfile` fails, `some` of the parsed mapping
  otherwise.  The serialized `.nuc` output file is modelled by its
  contents, carried in the `accepted` outcome.  The uncaught `IndexError`
  the code raises on an empty back-translated alignment is the distinct
  outcome `crashed`.
-/

/-- A Python string: its sequence of Unicode code points. -/
abbrev GSeq := List Char

/-- A Python dict mapping gene identifiers to sequences, in insertion order. -/
abbrev MsaDict := List (String × GSeq)

/-- Python dict lookup `d[k]` (and `k in d.keys()`, via `isSome`) on an
insertion-ordered association list. -/
def alookup {β : Type} (k : String) : List (String × β) → Option β
  | [] => none
  | p :: t => if p.1 = k then some p.2 else alookup k t

/-- CPython string `<`: lexicographic comparison of the code-point
sequences, shorter prefix first. -/
def lexLt : List Char → List Char → Bool
  | [], [] => false
  | [], _ :: _ => true
  | _ :: _, [] => false
  | a :: as, b :: bs => if a < b then true else if b < a then false else lexLt as bs

/-- CPython string `<` on `String`. -/
def strLt (a b : String) : Bool := lexLt a.data b.data

/-- CPython string `<=` (for a total order, `a <= b ↔ ¬ b < a`). -/
def strLe (a b : String) : Bool := !strLt b a

/-- The ordering used by Python's `sorted` on identifiers, as a relation. -/
def strLeP (a b : String) : Prop := strLe a b = true

instance : DecidableRel strLeP := fun a b => inferInstanceAs (Decidable (strLe a b = true))

/-- Python `sorted(keys)`: on the (unique) keys of a dict any correct sort
produces the unique `strLeP`-sorted permutation, here by insertion sort. -/
def sortKeys (l : List String) : List String := l.insertionSort strLeP

/-- The list `seqs = [(x, msa[x]) for x in sorted(msa.keys())]` of
`pairwise_alignment_stats`.  For `x` a key of `msa` the lookup always
succeeds, so the `getD` default is never read. -/
def sortedSeqs (msa : MsaDict) : MsaDict :=
  (sortKeys (msa.map Prod.fst)).map (fun k => (k, (alookup k msa).getD []))

/-- The gap-column index set of `_strip_gaps` (`indices`), listed in
ascending order, as Python's `sorted` canonicalizes it before use: every
column `i < L` at which at least one sequence carries the gap character.
In every context where this is used no row is shorter than `L`, so the
`getD` default is never read. -/
def gapColumns (msa : MsaDict) (L : Nat) : List Nat :=
  (List.range L).filter (fun i => msa.any (fun p => decide (p.2.getD i 'A' = '-')))

/-- Repeated `del sequence_list[index]` over the given index list, in the
given order (the source processes the gap columns in descending order). -/
def delIndices (idxs : List Nat) (s : GSeq) : GSeq :=
  idxs.foldl (fun acc i => acc.eraseIdx i) s

/-- Body of `_strip_gaps` for a present (non-`None`) dict: fail on an empty
dict; take the first row's length `L` as reference; abort (warning, return
`None`) as soon as a row shorter than `L` is met; otherwise delete the gap
columns from every row, in descending index order. -/
def stripGaps (msa : MsaDict) : Option MsaDict :=
  match msa with
  | [] => none
  | p0 :: _ =>
    if msa.any (fun p => decide (p.2.length < p0.2.length)) then none
    else
      some (msa.map (fun p =>
        (p.1, delIndices (gapColumns msa p0.2.length).reverse p.2)))

/-- Full `_strip_gaps`, including the `if msa_dict is None: return None`
guard. -/
def strip_gaps : Option MsaDict → Option MsaDict
  | none => none
  | some msa => stripGaps msa

/-- State of the argument dict after `_strip_gaps(msa)` returns: the source
mutates the dict entry by entry in its final loop and returns the same
object, so on success the argument holds exactly the returned alignment; on
every failure path the function returns before the mutation loop and the
argument is untouched. -/
def stripGapsPost (msa : MsaDict) : MsaDict :=
  match stripGaps msa with
  | none => msa
  | some r => r

/-- The specification's description of gap-column removal: emit every
character whose column index (counting from `n`) is not in `cols`,
preserving the original order. -/
def keepFrom {α : Type} (n : Nat) (cols : List Nat) : List α → List α
  | [] => []
  | a :: t => if n ∈ cols then keepFrom (n + 1) cols t else a :: keepFrom (n + 1) cols t

/-- Characters at column indices outside `cols`, in original order. -/
def keepOutside {α : Type} (cols : List Nat) (s : List α) : List α := keepFrom 0 cols s

/-- The alignment has the well-defined common row length `L`: it is
non-empty and every row has length `L`. -/
def uniformLength (msa : MsaDict) (L : Nat) : Prop :=
  msa ≠ [] ∧ ∀ p ∈ msa, p.2.length = L

/-- Length of the first row, `len(list(msa.values())[0])`; callers below
only use it on non-empty dicts (the empty case raises `IndexError`, which
the pipeline embedding surfaces as `crashed`). -/
def headLen (msa : MsaDict) : Nat := (msa.head?.map (fun p => p.2.length)).getD 0

/-- Codon-by-codon back-translation of one aligned protein row: a gap
column contributes `---` and leaves the nucleotide cursor unchanged, a
residue column contributes the next three nucleotides (`nucleotide[j:j+3]`,
a shorter slice near the end, exactly as a Python slice) and advances the
cursor by three.  The cursor is modelled by consuming the nucleotide list. -/
def backTranslateSeq : List Char → List Char → List Char
  | [], _ => []
  | c :: rest, nuc =>
    if c = '-' then '-' :: '-' :: '-' :: backTranslateSeq rest nuc
    else nuc.take 3 ++ backTranslateSeq rest (nuc.drop 3)

/-- `_nucleotide_msa_from_protein_msa`: fail (warning, `None`) unless the
set of row lengths of the protein alignment has exactly one element;
otherwise back-translate each identifier in order, skipping (warning)
identifiers absent from the nucleotide dict. -/
def nucleotide_msa_from_protein_msa (protein_msa_sequences nucleotide_sequences : MsaDict) :
    Option MsaDict :=
  if ((protein_msa_sequences.map (fun p => p.2.length)).dedup).length = 1 then
    some (protein_msa_sequences.filterMap (fun p =>
      match alookup p.1 nucleotide_sequences with
      | none => none
      | some ns => some (p.1, backTranslateSeq p.2 ns)))
  else none

/-- `hamming_distance`: count of mismatching positions over `zip`; the
`ValueError` raised on unequal lengths is `none`. -/
def hamming_distance (s1 s2 : GSeq) : Option Nat :=
  if s1.length = s2.length then
    some ((s1.zip s2).countP (fun p => decide (p.1 ≠ p.2)))
  else none

/-- The Python dict literal `{id1: s1, id2: s2}`: one entry (with the last
value) when the keys coincide, two entries otherwise. -/
def pairDict (id1 id2 : String) (s1 s2 : GSeq) : MsaDict :=
  if id1 = id2 then [(id2, s2)] else [(id1, s1), (id2, s2)]

/-- One pair's `[identity, coverage]` statistics.  The bare `except` of the
source catches every failure inside the `try` block — `d` being `None`
(`TypeError`), `hamming_distance`'s `ValueError`, and the two possible
`ZeroDivisionError`s — and records `[0, 0]` instead. -/
def statsPair (id1 id2 : String) (s1 s2 : GSeq) : ℚ × ℚ :=
  match stripGaps (pairDict id1 id2 s1 s2) with
  | none => (0, 0)
  | some d =>
    match alookup id1 d, alookup id2 d with
    | some d1, some d2 =>
      match hamming_distance d1 d2 with
      | none => (0, 0)
      | some h =>
        if d1.length = 0 then (0, 0)
        else if s1.length = 0 then (0, 0)
        else (((d1.length : ℚ) - (h : ℚ)) / (d1.length : ℚ),
              (d1.length : ℚ) / (s1.length : ℚ))
    | _, _ => (0, 0)

/-- The nested stats dict built by the double loop of
`pairwise_alignment_stats`: for the `i`-th sorted identifier, one inner
dict over the identifiers of rank `j ≥ i`, in order. -/
def statsRows : MsaDict → List (String × List (String × (ℚ × ℚ)))
  | [] => []
  | s :: rest =>
    (s.1, (s :: rest).map (fun t => (t.1, statsPair s.1 t.1 s.2 t.2))) :: statsRows rest

/-- `pairwise_alignment_stats`. -/
def pairwise_alignment_stats (msa : MsaDict) : List (String × List (String × (ℚ × ℚ))) :=
  statsRows (sortedSeqs msa)

/-- Lookup `stats[i][j]` in the nested stats dict. -/
def statsLookup (st : List (String × List (String × (ℚ × ℚ)))) (i j : String) :
    Option (ℚ × ℚ) :=
  (alookup i st).bind (fun row => alookup j row)

/-- Contents of the `.nuc` output file, write call by write call: first the
header `"\t{count}\t{length}\n"`, then for each identifier in iteration
order the identifier line and the sequence line. -/
def serializeMsa (msa : MsaDict) : String :=
  msa.foldl (fun acc p => acc ++ p.1 ++ "\n" ++ String.mk p.2 ++ "\n")
    ("\t" ++ toString msa.length ++ "\t" ++ toString (headLen msa) ++ "\n")

/-- Closed-form body of the serialized output: two lines per record. -/
def bodyConcat : MsaDict → String
  | [] => ""
  | p :: t => p.1 ++ "\n" ++ String.mk p.2 ++ "\n" ++ bodyConcat t

/-- Observable outcome of one `multiple_sequence_aligment_nucleotide` run:
`rejected` models every `return None`, `accepted` carries the serialized
output contents together with `l`, `l_stripped` and the stats matrix, and
`crashed` is the uncaught `IndexError` raised at
`len(list(nucleotide_msa.values())[0])` when the back-translated dict is
empty. -/
inductive PipelineOutcome where
  | crashed : PipelineOutcome
  | rejected : PipelineOutcome
  | accepted : String → Nat → Nat → List (String × List (String × (ℚ × ℚ))) → PipelineOutcome

/-- `multiple_sequence_aligment_nucleotide`: the pipeline over one gene
family.  The protein-alignment source is `none` when the MSA file is
absent.  Steps, in source order: back-translate; compute pairwise stats on
the unstripped alignment; read the raw length `l` off the first row
(`IndexError` — `crashed` — when there is no row); strip gaps; reject when
stripping failed or the stripped first-row length is below `min_length`;
otherwise emit the serialized alignment and the result record. -/
def multiple_sequence_aligment_nucleotide (msa_protein : Option MsaDict)
    (nucleotide_sequences : MsaDict) (min_length : Nat) : PipelineOutcome :=
  match msa_protein with
  | none => .rejected
  | some protein =>
    match nucleotide_msa_from_protein_msa protein nucleotide_sequences with
    | none => .rejected
    | some nucMsa =>
      let alignment_stats := pairwise_alignment_stats nucMsa
      match nucMsa with
      | [] => .crashed
      | q0 :: qrest =>
        let l := q0.2.length
        match stripGaps (q0 :: qrest) with
        | none => .rejected
        | some stripped =>
          if headLen stripped < min_length then .rejected
          else .accepted (serializeMsa stripped) l (headLen stripped) alignment_stats

/-! ### Order lemmas for the identifier sort -/

theorem lexLt_irrefl (a : List Char) : lexLt a a = false := by
  induction a with
  | nil => rfl
  | cons x xs ih => simp [lexLt, ih]

theorem lexLt_asymm : ∀ a b : List Char, lexLt a b = true → lexLt b a = false := by
  intro a
  induction a with
  | nil =>
    intro b h
    cases b with
    | nil => simp [lexLt] at h
    | cons y ys => rfl
  | cons x xs ih =>
    intro b h
    cases b with
    | nil => simp [lexLt] at h
    | cons y ys =>
      simp only [lexLt] at h ⊢
      by_cases hxy : x < y
      · simp [hxy, lt_asymm hxy]
      · by_cases hyx : y < x
        · simp [hxy, hyx] at h
        · simp only [hxy, hyx, if_false] at h ⊢
          exact ih ys h

theorem lexLt_eq_of_not : ∀ a b : List Char,
    lexLt a b = false → lexLt b a = false → a = b := by
  intro a
  induction a with
  | nil =>
    intro b h1 _
    cases b with
    | nil => rfl
    | cons y ys => simp [lexLt] at h1
  | cons x xs ih =>
    intro b h1 h2
    cases b with
    | nil => simp [lexLt] at h2
    | cons y ys =>
      simp only [lexLt] at h1 h2
      by_cases hxy : x < y
      · simp [hxy] at h1
      · by_cases hyx : y < x
        · simp [hyx] at h2
        · have hx : x = y := le_antisymm (not_lt.mp hyx) (not_lt.mp hxy)
          simp only [hxy, hyx, if_false] at h1 h2
          rw [hx, ih ys h1 h2]

theorem lexLt_trans : ∀ a b c : List Char,
    lexLt a b = true → lexLt b c = true → lexLt a c = true := by
  intro a
  induction a with
  | nil =>
    intro b c h1 h2
    cases b with
    | nil => simp [lexLt] at h1
    | cons y ys =>
      cases c with
      | nil => simp [lexLt] at h2
      | cons z zs => rfl
  | cons x xs ih =>
    intro b c h1 h2
    cases b with
    | nil => simp [lexLt] at h1
    | cons y ys =>
      cases c with
      | nil => simp [lexLt] at h2
      | cons z zs =>
        simp only [lexLt] at h1 h2 ⊢
        by_cases hxy : x < y
        · by_cases hyz : y < z
          · simp [lt_trans hxy hyz]
          · by_cases hzy : z < y
            · simp [hyz, hzy] at h2
            · have hy : y = z := le_antisymm (not_lt.mp hzy) (not_lt.mp hyz)
              rw [← hy]
              simp [hxy]
        · by_cases hyx : y < x
          · simp [hxy, hyx] at h1
          · have hx : x = y := le_antisymm (not_lt.mp hyx) (not_lt.mp hxy)
            by_cases hyz : y < z
            · rw [hx]
              simp [hyz]
            · by_cases hzy : z < y
              · simp [hyz, hzy] at h2
              · have hy : y = z := le_antisymm (not_lt.mp hzy) (not_lt.mp hyz)
                simp only [hxy, hyx, if_false] at h1
                simp only [hyz, hzy, if_false] at h2
                have hxz : ¬x < z := by rw [hx, hy]; exact lt_irrefl z
                have hzx : ¬z < x := by rw [hx, hy]; exact lt_irrefl z
                simp only [hxz, hzx, if_false]
                exact ih ys zs h1 h2

theorem strLt_irrefl (a : String) : strLt a a = false := lexLt_irrefl a.data

theorem strLe_refl (a : String) : strLe a a = true := by
  simp [strLe, strLt_irrefl]

theorem strLt_ne {a b : String} (h : strLt a b = true) : a ≠ b := by
  intro he
  rw [he, strLt_irrefl] at h
  exact Bool.false_ne_true h

theorem strLe_ne_lt {a b : String} (h1 : strLe a b = true) (h2 : a ≠ b) :
    strLt a b = true := by
  by_cases h : strLt a b = true
  · exact h
  · have hab : lexLt a.data b.data = false := by
      simpa [strLt] using Bool.eq_false_iff.mpr h
    have hba : lexLt b.data a.data = false := by
      have := h1
      simpa [strLe, strLt, Bool.not_eq_true'] using this
    exact absurd (String.ext (lexLt_eq_of_not a.data b.data hab hba)) h2

theorem strLeP_total (a b : String) : strLeP a b ∨ strLeP b a := by
  unfold strLeP strLe strLt
  by_cases h : lexLt b.data a.data = true
  · right
    simp [lexLt_asymm b.data a.data h]
  · left
    simp [Bool.eq_false_iff.mpr h]

theorem strLeP_trans (a b c : String) (h1 : strLeP a b) (h2 : strLeP b c) :
    strLeP a c := by
  unfold strLeP strLe strLt at h1 h2 ⊢
  rw [Bool.not_eq_true'] at h1 h2 ⊢
  by_cases hca : lexLt c.data a.data = true
  · by_cases hbc : lexLt b.data c.data = true
    · have := lexLt_trans b.data c.data a.data hbc hca
      rw [this] at h1
      exact absurd h1 (by simp)
    · have hbc' : b.data = c.data :=
        lexLt_eq_of_not b.data c.data (Bool.eq_false_iff.mpr hbc) h2
      rw [← hbc'] at hca
      rw [hca] at h1
      exact absurd h1 (by simp)
  · exact Bool.eq_false_iff.mpr hca

/-! ### Association-list lookup lemmas -/

theorem alookup_map_val {β γ : Type} (k : String) (f : String → β → γ) :
    ∀ l : List (String × β),
      alookup k (l.map (fun p => (p.1, f p.1 p.2))) = (alookup k l).map (f k) := by
  intro l
  induction l with
  | nil => rfl
  | cons p t ih =>
    simp only [List.map_cons, alookup]
    by_cases h : p.1 = k
    · subst h
      simp [ih]
    · simp [h, ih]

theorem alookup_eq_some_of_mem {β : Type} (k : String) (v : β) :
    ∀ l : List (String × β), (l.map Prod.fst).Nodup → (k, v) ∈ l →
      alookup k l = some v := by
  intro l
  induction l with
  | nil => simp
  | cons p t ih =>
    intro hnd hm
    simp only [List.map_cons, List.nodup_cons] at hnd
    rcases List.mem_cons.mp hm with h | h
    · rw [← h]
      simp [alookup]
    · have hk : p.1 ≠ k := by
        intro he
        exact hnd.1 (he ▸ List.mem_map.mpr ⟨(k, v), h, rfl⟩)
      simp [alookup, hk, ih hnd.2 h]

/-! ### Column-removal lemmas -/

theorem keepFrom_all_lt {α : Type} (cols : List Nat) :
    ∀ (s : List α) (n : Nat), (∀ i ∈ cols, i < n) → keepFrom n cols s = s := by
  intro s
  induction s with
  | nil => intro n _; rfl
  | cons a t ih =>
    intro n h
    have hn : n ∉ cols := fun hc => lt_irrefl n (h n hc)
    simp [keepFrom, hn, ih (n + 1) (fun i hi => Nat.lt_succ_of_lt (h i hi))]

theorem keepFrom_append {α : Type} (cols : List Nat) :
    ∀ (A B : List α) (n : Nat),
      keepFrom n cols (A ++ B) = keepFrom n cols A ++ keepFrom (n + A.length) cols B := by
  intro A
  induction A with
  | nil => intro B n; simp [keepFrom]
  | cons a t ih =>
    intro B n
    have e1 : (a :: t) ++ B = a :: (t ++ B) := rfl
    have e2 : n + (a :: t).length = (n + 1) + t.length := by
      simp only [List.length_cons]
      omega
    rw [e1, e2]
    by_cases h : n ∈ cols
    · rw [keepFrom, if_pos h, keepFrom, if_pos h, ih B (n + 1)]
    · rw [keepFrom, if_neg h, keepFrom, if_neg h, ih B (n + 1), List.cons_append]

theorem keepFrom_congr {α : Type} (cols cols' : List Nat) :
    ∀ (s : List α) (n : Nat),
      (∀ i, n ≤ i → i < n + s.length → (i ∈ cols ↔ i ∈ cols')) →
      keepFrom n cols s = keepFrom n cols' s := by
  intro s
  induction s with
  | nil => intro n _; rfl
  | cons a t ih =>
    intro n h
    have hht : ∀ i, n + 1 ≤ i → i < n + 1 + t.length → (i ∈ cols ↔ i ∈ cols') := by
      intro i h1 h2
      exact h i (by omega) (by simp only [List.length_cons]; omega)
    have hn : n ∈ cols ↔ n ∈ cols' :=
      h n le_rfl (by simp only [List.length_cons]; omega)
    by_cases hc : n ∈ cols
    · simp [keepFrom, hc, hn.mp hc, ih (n + 1) hht]
    · have hc' : n ∉ cols' := fun hx => hc (hn.mpr hx)
      simp [keepFrom, hc, hc', ih (n + 1) hht]

theorem keepFrom_length {α : Type} (cols : List Nat) :
    ∀ (s : List α) (n : Nat),
      (keepFrom n cols s).length =
        s.length - List.countP (fun i => decide (i ∈ cols)) (List.range' n s.length) := by
  intro s
  induction s with
  | nil => intro n; rfl
  | cons a t ih =>
    intro n
    have hc : List.countP (fun i => decide (i ∈ cols)) (List.range' (n + 1) t.length) ≤
        t.length := by
      have h2 := @List.countP_le_length Nat (fun i => decide (i ∈ cols))
        (List.range' (n + 1) t.length)
      simpa [List.length_range'] using h2
    simp only [List.length_cons, List.range'_succ, List.countP_cons]
    by_cases h : n ∈ cols
    · rw [keepFrom, if_pos h, ih (n + 1), decide_eq_true h]
      simp only [if_pos]
      omega
    · rw [keepFrom, if_neg h, List.length_cons, ih (n + 1), decide_eq_false h]
      simp only [Bool.false_eq_true, if_false]
      omega

theorem keepFrom_mem {α : Type} (cols : List Nat) (d : α) :
    ∀ (s : List α) (n : Nat) (c : α), c ∈ keepFrom n cols s →
      ∃ k, k < s.length ∧ (n + k) ∉ cols ∧ s.getD k d = c := by
  intro s
  induction s with
  | nil => intro n c h; simp [keepFrom] at h
  | cons a t ih =>
    intro n c h
    by_cases hn : n ∈ cols
    · rw [keepFrom, if_pos hn] at h
      obtain ⟨k, hk, hnot, hg⟩ := ih (n + 1) c h
      exact ⟨k + 1, by simpa using Nat.succ_lt_succ hk,
        by simpa [Nat.add_assoc, Nat.add_comm 1 k] using hnot, by simpa using hg⟩
    · rw [keepFrom, if_neg hn] at h
      rcases List.mem_cons.mp h with h | h
      · exact ⟨0, by simp, by simpa using hn, by simpa using h.symm⟩
      · obtain ⟨k, hk, hnot, hg⟩ := ih (n + 1) c h
        exact ⟨k + 1, by simpa using Nat.succ_lt_succ hk,
          by simpa [Nat.add_assoc, Nat.add_comm 1 k] using hnot, by simpa using hg⟩

theorem keepOutside_cons_erase {α : Type} (dd : Nat) (cols : List Nat) (s : List α)
    (hd : dd < s.length) (hcols : ∀ i ∈ cols, i < dd) :
    keepOutside (dd :: cols) s = keepOutside cols (s.eraseIdx dd) := by
  unfold keepOutside
  conv_lhs => rw [← List.take_append_drop dd s, List.drop_eq_getElem_cons hd]
  rw [List.eraseIdx_eq_take_drop_succ, keepFrom_append, keepFrom_append]
  have hlen : (List.take dd s).length = dd := by
    simp only [List.length_take]
    omega
  rw [hlen]
  have hfirst : keepFrom 0 (dd :: cols) (List.take dd s) =
      keepFrom 0 cols (List.take dd s) := by
    apply keepFrom_congr
    intro i _ hi
    rw [hlen] at hi
    simp only [Nat.zero_add] at hi
    simp only [List.mem_cons]
    constructor
    · rintro (rfl | h)
      · omega
      · exact h
    · intro h
      exact Or.inr h
  rw [hfirst]
  congr 1
  have hsecond : keepFrom (0 + dd) (dd :: cols) (s[dd] :: List.drop (dd + 1) s) =
      keepFrom (0 + dd) cols (List.drop (dd + 1) s) := by
    simp only [Nat.zero_add, keepFrom, List.mem_cons, true_or, if_pos]
    rw [keepFrom_all_lt, keepFrom_all_lt]
    · exact hcols
    · intro i hi
      rcases List.mem_cons.mp hi with rfl | h
      · omega
      · exact Nat.lt_succ_of_lt (hcols i h)
  rw [hsecond]

theorem delIndices_eq_keepOutside : ∀ (idxs : List Nat) (s : GSeq),
    idxs.Pairwise (fun a b => b < a) → (∀ i ∈ idxs, i < s.length) →
    delIndices idxs s = keepOutside idxs s := by
  intro idxs
  induction idxs with
  | nil =>
    intro s _ _
    rw [delIndices, List.foldl_nil, keepOutside, keepFrom_all_lt]
    simp
  | cons dd rest ih =>
    intro s hp hb
    have hdlt : dd < s.length := hb dd (List.mem_cons_self dd rest)
    have hrest : ∀ i ∈ rest, i < dd := (List.pairwise_cons.mp hp).1
    have hstep : delIndices (dd :: rest) s = delIndices rest (s.eraseIdx dd) := rfl
    rw [hstep, ih (s.eraseIdx dd) (List.pairwise_cons.mp hp).2 ?_,
      ← keepOutside_cons_erase dd rest s hdlt hrest]
    intro i hi
    rw [List.length_eraseIdx]
    have := hrest i hi
    simp only [hdlt, if_pos]
    omega

/-! ### Gap-stripper characterization -/

theorem gapColumns_lt {msa : MsaDict} {L i : Nat} (h : i ∈ gapColumns msa L) : i < L := by
  unfold gapColumns at h
  exact List.mem_range.mp (List.mem_filter.mp h).1

theorem gapColumns_pairwise (msa : MsaDict) (L : Nat) :
    (gapColumns msa L).Pairwise (· < ·) :=
  List.Pairwise.sublist (List.filter_sublist _) (List.sorted_lt_range L)

theorem gapColumns_countP (msa : MsaDict) (L : Nat) :
    List.countP (fun i => decide (i ∈ gapColumns msa L)) (List.range L) =
      (gapColumns msa L).length := by
  have hcong : List.countP (fun i => decide (i ∈ gapColumns msa L)) (List.range L) =
      List.countP (fun i => msa.any (fun p => decide (p.2.getD i 'A' = '-')))
        (List.range L) := by
    apply List.countP_congr
    intro i hi
    simp only [decide_eq_true_eq]
    unfold gapColumns
    simp [List.mem_filter, hi]
  rw [hcong, List.countP_eq_length_filter]
  rfl

theorem gapColumns_countP_ge (msa : MsaDict) (L n : Nat) (hL : L ≤ n) :
    List.countP (fun i => decide (i ∈ gapColumns msa L)) (List.range' 0 n) =
      (gapColumns msa L).length := by
  have h2 := List.range'_append 0 L (n - L) 1
  simp only [Nat.one_mul, Nat.zero_add] at h2
  have e : n - L + L = n := by omega
  rw [e] at h2
  rw [← h2, List.countP_append]
  have hz : List.countP (fun i => decide (i ∈ gapColumns msa L))
      (List.range' L (n - L)) = 0 := by
    rw [List.countP_eq_zero]
    intro i hi
    simp only [decide_eq_true_eq]
    intro hmem
    have h3 := gapColumns_lt hmem
    have h4 : L ≤ i := by
      rcases List.mem_range'.mp hi with ⟨k, _, rfl⟩
      omega
    omega
  rw [hz, ← List.range_eq_range', gapColumns_countP]
  omega

theorem keepOutside_length_ge {α : Type} (msa : MsaDict) (L : Nat) (s : List α)
    (hL : L ≤ s.length) :
    (keepOutside (gapColumns msa L) s).length = s.length - (gapColumns msa L).length := by
  unfold keepOutside
  rw [keepFrom_length, gapColumns_countP_ge msa L s.length hL]

theorem keepOutside_split {α : Type} (cols : List Nat) (L : Nat) (s : List α)
    (hL : L ≤ s.length) (hcols : ∀ i ∈ cols, i < L) :
    keepOutside cols s = keepOutside cols (s.take L) ++ s.drop L := by
  unfold keepOutside
  conv_lhs => rw [← List.take_append_drop L s]
  rw [keepFrom_append]
  have hlen : (s.take L).length = L := by
    simp only [List.length_take]
    omega
  rw [hlen]
  congr 1
  rw [keepFrom_all_lt]
  intro i hi
  have := hcols i hi
  omega

theorem stripGaps_cons (p0 : String × GSeq) (rest : MsaDict) :
    stripGaps (p0 :: rest) =
      if (p0 :: rest).any (fun p => decide (p.2.length < p0.2.length)) then none
      else some ((p0 :: rest).map (fun p =>
        (p.1, delIndices (gapColumns (p0 :: rest) p0.2.length).reverse p.2))) := rfl

theorem stripGaps_none_iff (p0 : String × GSeq) (rest : MsaDict) :
    stripGaps (p0 :: rest) = none ↔ ∃ p ∈ p0 :: rest, p.2.length < p0.2.length := by
  rw [stripGaps_cons]
  by_cases h : ((p0 :: rest).any fun p => decide (p.2.length < p0.2.length)) = true
  · rw [if_pos h]
    simp only [List.any_eq_true, decide_eq_true_eq] at h
    exact iff_of_true rfl h
  · rw [if_neg h]
    refine iff_of_false (by simp) ?_
    intro hc
    obtain ⟨p, hp, hlt⟩ := hc
    exact h (List.any_eq_true.mpr ⟨p, hp, decide_eq_true hlt⟩)

theorem stripGaps_some_eq (p0 : String × GSeq) (rest : MsaDict)
    (hshort : ∀ p ∈ p0 :: rest, p0.2.length ≤ p.2.length) :
    stripGaps (p0 :: rest) =
      some ((p0 :: rest).map (fun p =>
        (p.1, keepOutside (gapColumns (p0 :: rest) p0.2.length) p.2))) := by
  have hany : ((p0 :: rest).any fun p => decide (p.2.length < p0.2.length)) = false := by
    apply Bool.eq_false_iff.mpr
    intro hc
    obtain ⟨p, hp, hdec⟩ := List.any_eq_true.mp hc
    exact absurd (decide_eq_true_eq.mp hdec) (not_lt.mpr (hshort p hp))
  rw [stripGaps_cons, if_neg (by rw [hany]; exact Bool.false_ne_true)]
  congr 1
  apply List.map_congr_left
  intro p hp
  have h1 : (gapColumns (p0 :: rest) p0.2.length).reverse.Pairwise (fun a b => b < a) :=
    List.pairwise_reverse.mpr (gapColumns_pairwise _ _)
  have h2 : ∀ i ∈ (gapColumns (p0 :: rest) p0.2.length).reverse, i < p.2.length := by
    intro i hi
    exact lt_of_lt_of_le (gapColumns_lt (List.mem_reverse.mp hi)) (hshort p hp)
  rw [delIndices_eq_keepOutside _ p.2 h1 h2]
  unfold keepOutside
  rw [keepFrom_congr]
  intro i _ _
  exact List.mem_reverse

theorem gapColumns_length_le (msa : MsaDict) (L : Nat) :
    (gapColumns msa L).length ≤ L := by
  have h := List.Sublist.length_le
    (@List.filter_sublist Nat
      (fun i => msa.any (fun p => decide (p.2.getD i 'A' = '-'))) (List.range L))
  simpa [gapColumns, List.length_range] using h

theorem gapColumns_mem_of_getD {msa : MsaDict} {L k : Nat} {p : String × GSeq}
    (hp : p ∈ msa) (hkL : k < L) (hgap : p.2.getD k 'A' = '-') :
    k ∈ gapColumns msa L := by
  unfold gapColumns
  exact List.mem_filter.mpr ⟨List.mem_range.mpr hkL,
    List.any_eq_true.mpr ⟨p, hp, decide_eq_true hgap⟩⟩

theorem keepOutside_no_gap_below (msa : MsaDict) (L : Nat) (p : String × GSeq)
    (hp : p ∈ msa) (hL : L ≤ p.2.length) :
    ∀ i < L - (gapColumns msa L).length,
      ¬((keepOutside (gapColumns msa L) p.2).getD i 'A' = '-') := by
  intro i hi hgap
  have hcols : ∀ c ∈ gapColumns msa L, c < L := fun c hc => gapColumns_lt hc
  have htlen : (p.2.take L).length = L := by
    simp only [List.length_take]
    omega
  have hlen1 : (keepOutside (gapColumns msa L) (p.2.take L)).length =
      L - (gapColumns msa L).length := by
    rw [keepOutside_length_ge msa L (p.2.take L) (le_of_eq htlen.symm), htlen]
  have hsplit := keepOutside_split (gapColumns msa L) L p.2 hL hcols
  rw [hsplit] at hgap
  have hiL : i < (keepOutside (gapColumns msa L) (p.2.take L)).length := by omega
  rw [List.getD_append _ _ _ i hiL, List.getD_eq_getElem _ _ hiL] at hgap
  have hmem : (keepOutside (gapColumns msa L) (p.2.take L))[i] ∈
      keepOutside (gapColumns msa L) (p.2.take L) := List.getElem_mem hiL
  obtain ⟨k, hk, hknot, hkg⟩ := keepFrom_mem (gapColumns msa L) 'A' (p.2.take L) 0 _ hmem
  rw [hgap] at hkg
  have hkL : k < L := by
    rw [htlen] at hk
    exact hk
  have hpd : p.2.getD k 'A' = '-' := by
    rw [← hkg, List.getD_eq_getElem _ _ hk,
      List.getD_eq_getElem _ _ (lt_of_lt_of_le hkL hL)]
    exact (List.getElem_take p.2).symm
  have hkmem : k ∈ gapColumns msa L := gapColumns_mem_of_getD hp hkL hpd
  rw [Nat.zero_add] at hknot
  exact hknot hkmem

theorem gapColumns_eq_nil_iff (msa : MsaDict) (L : Nat) :
    gapColumns msa L = [] ↔ ∀ i < L, ∀ p ∈ msa, ¬(p.2.getD i 'A' = '-') := by
  unfold gapColumns
  rw [List.filter_eq_nil_iff]
  constructor
  · intro h i hiL p hp hgap
    exact h i (List.mem_range.mpr hiL)
      (List.any_eq_true.mpr ⟨p, hp, decide_eq_true hgap⟩)
  · intro h i hi hany
    obtain ⟨p, hp, hdec⟩ := List.any_eq_true.mp hany
    exact h i (List.mem_range.mp hi) p hp (decide_eq_true_eq.mp hdec)

theorem stripGaps_fix (msa r : MsaDict) (h : stripGaps msa = some r) :
    stripGaps r = some r := by
  cases msa with
  | nil => simp [stripGaps] at h
  | cons p0 rest =>
    have hshort : ∀ p ∈ p0 :: rest, p0.2.length ≤ p.2.length := by
      by_contra hc
      push_neg at hc
      obtain ⟨p, hp, hlt⟩ := hc
      rw [(stripGaps_none_iff p0 rest).mpr ⟨p, hp, hlt⟩] at h
      exact Option.noConfusion h
    have hs := stripGaps_some_eq p0 rest hshort
    rw [hs] at h
    have hr : r = (p0 :: rest).map (fun p =>
        (p.1, keepOutside (gapColumns (p0 :: rest) p0.2.length) p.2)) :=
      (Option.some.inj h).symm
    have hrowlen : ∀ p ∈ p0 :: rest,
        (keepOutside (gapColumns (p0 :: rest) p0.2.length) p.2).length =
          p.2.length - (gapColumns (p0 :: rest) p0.2.length).length := by
      intro p hp
      exact keepOutside_length_ge (p0 :: rest) p0.2.length p.2 (hshort p hp)
    have hheadlen : (keepOutside (gapColumns (p0 :: rest) p0.2.length) p0.2).length =
        p0.2.length - (gapColumns (p0 :: rest) p0.2.length).length :=
      hrowlen p0 (List.mem_cons_self p0 rest)
    have hhead : r = (p0.1, keepOutside (gapColumns (p0 :: rest) p0.2.length) p0.2) ::
        rest.map (fun p => (p.1, keepOutside (gapColumns (p0 :: rest) p0.2.length) p.2)) := by
      rw [hr]
      rfl
    rw [hhead]
    have hshort2 : ∀ q ∈ (p0.1, keepOutside (gapColumns (p0 :: rest) p0.2.length) p0.2) ::
        rest.map (fun p => (p.1, keepOutside (gapColumns (p0 :: rest) p0.2.length) p.2)),
        (p0.1, keepOutside (gapColumns (p0 :: rest) p0.2.length) p0.2).2.length ≤
          q.2.length := by
      intro q hq
      have hq' : q ∈ (p0 :: rest).map (fun p =>
          (p.1, keepOutside (gapColumns (p0 :: rest) p0.2.length) p.2)) := hq
      obtain ⟨p, hp, hpq⟩ := List.mem_map.mp hq'
      rw [← hpq]
      show (keepOutside (gapColumns (p0 :: rest) p0.2.length) p0.2).length ≤
        (keepOutside (gapColumns (p0 :: rest) p0.2.length) p.2).length
      rw [hheadlen, hrowlen p hp]
      have := hshort p hp
      omega
    rw [stripGaps_some_eq _ _ hshort2]
    have hcols2 : gapColumns
        ((p0.1, keepOutside (gapColumns (p0 :: rest) p0.2.length) p0.2) ::
          rest.map (fun p => (p.1, keepOutside (gapColumns (p0 :: rest) p0.2.length) p.2)))
        (keepOutside (gapColumns (p0 :: rest) p0.2.length) p0.2).length = [] := by
      rw [gapColumns_eq_nil_iff]
      intro i hi q hq hgap
      rw [hheadlen] at hi
      have hq' : q ∈ (p0 :: rest).map (fun p =>
          (p.1, keepOutside (gapColumns (p0 :: rest) p0.2.length) p.2)) := hq
      obtain ⟨p, hp, hpq⟩ := List.mem_map.mp hq'
      have hgap' : (keepOutside (gapColumns (p0 :: rest) p0.2.length) p.2).getD i 'A' = '-' := by
        rw [← hpq] at hgap
        exact hgap
      exact keepOutside_no_gap_below (p0 :: rest) p0.2.length p hp (hshort p hp) i hi hgap'
    rw [hcols2]
    congr 1
    refine (List.map_congr_left ?_).trans (List.map_id _)
    intro q _
    show (q.1, keepOutside ([] : List Nat) q.2) = q
    unfold keepOutside
    rw [keepFrom_all_lt]
    · simp
    

/-! ### Back-translation lemmas -/

theorem dedup_eq_singleton_of_uniform {l : List Nat} {a : Nat}
    (hne : l ≠ []) (h : ∀ x ∈ l, x = a) : l.dedup = [a] := by
  induction l with
  | nil => exact absurd rfl hne
  | cons x t ih =>
    have hx : x = a := h x (List.mem_cons_self x t)
    cases t with
    | nil => simp [List.dedup, hx]
    | cons y ts =>
      have hy : y = a := h y (List.mem_cons_of_mem x (List.mem_cons_self y ts))
      have hmem : x ∈ y :: ts := by
        rw [hx, ← hy]
        exact List.mem_cons_self y ts
      rw [List.dedup_cons_of_mem hmem]
      exact ih (by simp) (fun z hz => h z (List.mem_cons_of_mem x hz))

theorem uniform_of_dedup_len_one {l : List Nat} (h : l.dedup.length = 1) :
    l ≠ [] ∧ ∃ a, ∀ x ∈ l, x = a := by
  obtain ⟨a, ha⟩ := List.length_eq_one.mp h
  constructor
  · intro he
    rw [he] at ha
    simp [List.dedup] at ha
  · refine ⟨a, fun x hx => ?_⟩
    have hm : x ∈ l.dedup := List.mem_dedup.mpr hx
    rw [ha] at hm
    simpa using hm

theorem backTranslateSeq_length : ∀ (prot ns : List Char),
    3 * prot.countP (fun c => decide (c ≠ '-')) ≤ ns.length →
    (backTranslateSeq prot ns).length = 3 * prot.length := by
  intro prot
  induction prot with
  | nil =>
    intro ns _
    simp [backTranslateSeq]
  | cons c rest ih =>
    intro ns h
    by_cases hc : c = '-'
    · have hcnt : List.countP (fun c => decide (c ≠ '-')) (c :: rest) =
          List.countP (fun c => decide (c ≠ '-')) rest := by
        rw [List.countP_cons, decide_eq_false (by simp [hc]), if_neg (by simp)]
        omega
      rw [hcnt] at h
      rw [backTranslateSeq, if_pos hc]
      simp only [List.length_cons, ih ns h]
      omega
    · have hcnt : List.countP (fun c => decide (c ≠ '-')) (c :: rest) =
          List.countP (fun c => decide (c ≠ '-')) rest + 1 := by
        rw [List.countP_cons, decide_eq_true (by simp [hc]), if_pos rfl]
      rw [hcnt] at h
      have hns : 3 ≤ ns.length := by omega
      have hdrop : 3 * List.countP (fun c => decide (c ≠ '-')) rest ≤
          (ns.drop 3).length := by
        simp only [List.length_drop]
        omega
      rw [backTranslateSeq, if_neg hc]
      simp only [List.length_append, List.length_take, List.length_cons,
        ih (ns.drop 3) hdrop]
      omega

theorem backTranslate_keys (nuc : MsaDict) : ∀ l : MsaDict,
    (l.filterMap (fun p =>
      match alookup p.1 nuc with
      | none => none
      | some ns => some (p.1, backTranslateSeq p.2 ns))).map Prod.fst =
    (l.filter (fun p => (alookup p.1 nuc).isSome)).map Prod.fst := by
  intro l
  induction l with
  | nil => rfl
  | cons p t ih =>
    rw [List.filterMap_cons, List.filter_cons]
    cases h : alookup p.1 nuc with
    | none => simpa [h] using ih
    | some ns => simpa [h] using ih

/-! ### Pairwise-statistics lemmas -/

theorem sortedSeqs_mem {msa : MsaDict} (hnd : (msa.map Prod.fst).Nodup)
    {i : String} {si : GSeq} (hi : (i, si) ∈ msa) : (i, si) ∈ sortedSeqs msa := by
  have hk : i ∈ msa.map Prod.fst := List.mem_map.mpr ⟨(i, si), hi, rfl⟩
  have hks : i ∈ sortKeys (msa.map Prod.fst) :=
    (List.perm_insertionSort strLeP (msa.map Prod.fst)).mem_iff.mpr hk
  unfold sortedSeqs
  refine List.mem_map.mpr ⟨i, hks, ?_⟩
  rw [alookup_eq_some_of_mem i si msa hnd hi]
  rfl

theorem sortedSeqs_pairwise {msa : MsaDict} (hnd : (msa.map Prod.fst).Nodup) :
    (sortedSeqs msa).Pairwise (fun a b => strLt a.1 b.1 = true) := by
  have hsort : List.Sorted strLeP (sortKeys (msa.map Prod.fst)) := by
    haveI : IsTotal String strLeP := ⟨strLeP_total⟩
    haveI : IsTrans String strLeP := ⟨strLeP_trans⟩
    exact List.sorted_insertionSort strLeP (msa.map Prod.fst)
  have hnd' : (sortKeys (msa.map Prod.fst)).Nodup :=
    (List.perm_insertionSort strLeP (msa.map Prod.fst)).symm.nodup hnd
  have hstrict : (sortKeys (msa.map Prod.fst)).Pairwise (fun a b => strLt a b = true) :=
    (hsort.and hnd').imp (fun hab => strLe_ne_lt hab.1 hab.2)
  unfold sortedSeqs
  exact List.pairwise_map.mpr hstrict

theorem pairwise_fst_nodup {l : MsaDict}
    (h : l.Pairwise (fun a b => strLt a.1 b.1 = true)) : (l.map Prod.fst).Nodup := by
  have h2 : l.Pairwise (fun a b => a.1 ≠ b.1) := h.imp (fun hab => strLt_ne hab)
  exact List.pairwise_map.mpr h2

theorem statsRows_cons (s : String × GSeq) (rest : MsaDict) :
    statsRows (s :: rest) =
      (s.1, (s :: rest).map (fun t => (t.1, statsPair s.1 t.1 s.2 t.2))) ::
        statsRows rest := rfl

theorem statsRows_lookup : ∀ (seqs : MsaDict),
    seqs.Pairwise (fun a b => strLt a.1 b.1 = true) →
    ∀ (i j : String) (si sj : GSeq), (i, si) ∈ seqs → (j, sj) ∈ seqs →
      strLe i j = true →
      statsLookup (statsRows seqs) i j = some (statsPair i j si sj) := by
  intro seqs
  induction seqs with
  | nil =>
    intro _ i j si sj hi _ _
    simp at hi
  | cons s rest ih =>
    intro hpw i j si sj hi hj hij
    obtain ⟨hhead, hrest⟩ := List.pairwise_cons.mp hpw
    by_cases hik : s.1 = i
    · have hsi : s.2 = si := by
        rcases List.mem_cons.mp hi with h | h
        · rw [← h]
        · exfalso
          have hlt := hhead (i, si) h
          rw [hik] at hlt
          rw [show strLt i ((i : String), si).1 = strLt i i from rfl, strLt_irrefl] at hlt
          exact Bool.false_ne_true hlt
      unfold statsLookup
      rw [statsRows_cons, alookup, if_pos hik]
      have hrow := alookup_map_val j (fun a b => statsPair s.1 a s.2 b) (s :: rest)
      show alookup j ((s :: rest).map (fun t => (t.1, statsPair s.1 t.1 s.2 t.2))) =
        some (statsPair i j si sj)
      rw [hrow, alookup_eq_some_of_mem j sj (s :: rest) (pairwise_fst_nodup hpw) hj]
      show some (statsPair s.1 j s.2 sj) = some (statsPair i j si sj)
      rw [hik, hsi]
    · have hi' : (i, si) ∈ rest := by
        rcases List.mem_cons.mp hi with h | h
        · exact absurd (congrArg Prod.fst h).symm hik
        · exact h
      have hj' : (j, sj) ∈ rest := by
        rcases List.mem_cons.mp hj with h | h
        · exfalso
          have hsj : s.1 = j := (congrArg Prod.fst h).symm
          have hlt := hhead (i, si) hi'
          rw [hsj] at hlt
          rw [strLe, show strLt j (i, si).1 = strLt j i from rfl, hlt] at hij
          simp at hij
        · exact h
      unfold statsLookup
      rw [statsRows_cons, alookup, if_neg hik]
      exact ih hrest i j si sj hi' hj' hij

theorem zip_self_fst_eq_snd : ∀ (l : List Char) (p : Char × Char),
    p ∈ l.zip l → p.1 = p.2 := by
  intro l
  induction l with
  | nil => intro p hp; simp at hp
  | cons a t ih =>
    intro p hp
    rcases List.mem_cons.mp hp with h | h
    · rw [h]
    · exact ih p h

theorem hamming_self (s : GSeq) : hamming_distance s s = some 0 := by
  unfold hamming_distance
  rw [if_pos rfl]
  congr 1
  rw [List.countP_eq_zero]
  intro p hp hdec
  exact absurd (zip_self_fst_eq_snd s p hp) (decide_eq_true_eq.mp hdec)

theorem statsPair_self (i : String) (si : GSeq) (hne : si ≠ []) (hgap : '-' ∉ si) :
    statsPair i i si si = (1, 1) := by
  have hlen0 : si.length ≠ 0 := fun h => hne (List.length_eq_zero.mp h)
  have h0 : (si.length : ℚ) ≠ 0 := Nat.cast_ne_zero.mpr hlen0
  have hpd : pairDict i i si si = [(i, si)] := by simp [pairDict]
  have hstrip : stripGaps [(i, si)] = some [(i, si)] := by
    rw [stripGaps_cons, if_neg (by simp)]
    have hcols : gapColumns [(i, si)] (i, si).2.length = [] := by
      rw [gapColumns_eq_nil_iff]
      intro k hk p hp hgap'
      have hp' : p = (i, si) := by simpa using hp
      rw [hp'] at hgap'
      apply hgap
      rw [List.getD_eq_getElem _ _ hk] at hgap'
      rw [← hgap']
      exact List.getElem_mem hk
    rw [hcols]
    rfl
  have hl : alookup i [(i, si)] = some si := by simp [alookup]
  unfold statsPair
  rw [hpd, hstrip]
  simp only [hl, hamming_self, hlen0, if_neg, if_false]
  simp only [Prod.mk.injEq]
  constructor
  · rw [Nat.cast_zero, sub_zero, div_self h0]
  · rw [div_self h0]

theorem statsPair_zero_of (i j : String) (si sj : GSeq)
    (hfail : stripGaps (pairDict i j si sj) = none ∨
      (stripGaps (pairDict i j si sj)).bind (alookup i) = some []) :
    statsPair i j si sj = (0, 0) := by
  rcases hfail with h | h
  · unfold statsPair
    rw [h]
  · obtain ⟨d, hd, hl⟩ := Option.bind_eq_some.mp h
    unfold statsPair
    rw [hd]
    simp only [hl]
    cases hj : alookup j d with
    | none => rfl
    | some d2 =>
      cases d2 with
      | nil => rfl
      | cons c cs => rfl

/-! ### Serialization lemmas -/

theorem strAppend_assoc (a b c : String) : a ++ b ++ c = a ++ (b ++ c) := by
  apply String.ext
  simp [String.data_append]

theorem serialize_foldl_body : ∀ (l : MsaDict) (init : String),
    l.foldl (fun acc p => acc ++ p.1 ++ "\n" ++ String.mk p.2 ++ "\n") init =
      init ++ bodyConcat l := by
  intro l
  induction l with
  | nil =>
    intro init
    rw [List.foldl_nil, bodyConcat, String.append_empty]
  | cons p t ih =>
    intro init
    rw [List.foldl_cons, ih, bodyConcat]
    apply String.ext
    simp [String.data_append, List.append_assoc]

theorem serializeMsa_eq (msa : MsaDict) :
    serializeMsa msa =
      "\t" ++ toString msa.length ++ "\t" ++ toString (headLen msa) ++ "\n" ++
        bodyConcat msa := by
  unfold serializeMsa
  rw [serialize_foldl_body]

/-! ### Claim theorems -/

/-- C1: for every alignment whose rows all have the same length `L`,
`_strip_gaps` succeeds and returns an alignment over the same identifiers in
which exactly the columns in the union, across all rows, of gap-column
indices are removed, the remaining characters keeping their original column
order, and every output row has length `L` minus the size of that union. -/
theorem claim_C1_gap_stripper_removes_union (msa : MsaDict) (L : Nat)
    (h : uniformLength msa L) :
    ∃ r, stripGaps msa = some r ∧
      r.map Prod.fst = msa.map Prod.fst ∧
      r = msa.map (fun p => (p.1, keepOutside (gapColumns msa L) p.2)) ∧
      ∀ p ∈ r, p.2.length = L - (gapColumns msa L).length := by
  obtain ⟨hne, hu⟩ := h
  cases msa with
  | nil => exact absurd rfl hne
  | cons p0 rest =>
    have hL0 : p0.2.length = L := hu p0 (List.mem_cons_self p0 rest)
    have hshort : ∀ p ∈ p0 :: rest, p0.2.length ≤ p.2.length := by
      intro p hp
      rw [hL0, hu p hp]
    have hs := stripGaps_some_eq p0 rest hshort
    rw [hL0] at hs
    refine ⟨_, hs, ?_, rfl, ?_⟩
    · rw [List.map_map]
      rfl
    · intro p hp
      obtain ⟨q, hq, hpq⟩ := List.mem_map.mp hp
      rw [← hpq]
      show (keepOutside (gapColumns (p0 :: rest) L) q.2).length =
        L - (gapColumns (p0 :: rest) L).length
      rw [keepOutside_length_ge (p0 :: rest) L q.2 (le_of_eq (hu q hq).symm), hu q hq]

/-- Witness for C1 at a concrete gapped uniform alignment. -/
theorem claim_C1_witness :
    uniformLength [("g1", "AT-G".data), ("g2", "A--G".data)] 4 ∧
    (∃ r, stripGaps [("g1", "AT-G".data), ("g2", "A--G".data)] = some r ∧
      r.map Prod.fst = [("g1", "AT-G".data), ("g2", "A--G".data)].map Prod.fst ∧
      r = [("g1", "AT-G".data), ("g2", "A--G".data)].map (fun p =>
        (p.1, keepOutside (gapColumns [("g1", "AT-G".data), ("g2", "A--G".data)] 4) p.2)) ∧
      ∀ p ∈ r, p.2.length =
        4 - (gapColumns [("g1", "AT-G".data), ("g2", "A--G".data)] 4).length) :=
  ⟨⟨by decide, by decide⟩, claim_C1_gap_stripper_removes_union _ 4 ⟨by decide, by decide⟩⟩

/-- C10: for a non-empty alignment, `_strip_gaps` fails exactly when some
row is strictly shorter than the first row; on success, every row keeps its
characters at indices at or beyond the first-row length `L` untouched (only
columns below `L` are examined), so the output can contain rows of unequal
length. -/
theorem claim_C10_ragged_rows (msa : MsaDict) (hne : msa ≠ []) :
    (stripGaps msa = none ↔ ∃ p ∈ msa, p.2.length < headLen msa) ∧
    (∀ r, stripGaps msa = some r →
      r = msa.map (fun p =>
        (p.1, keepOutside (gapColumns msa (headLen msa)) (p.2.take (headLen msa)) ++
          p.2.drop (headLen msa)))) ∧
    (∃ m r, stripGaps m = some r ∧ ∃ p q, p ∈ r ∧ q ∈ r ∧ p.2.length ≠ q.2.length) := by
  cases msa with
  | nil => exact absurd rfl hne
  | cons p0 rest =>
    have hhl : headLen (p0 :: rest) = p0.2.length := rfl
    refine ⟨by rw [hhl]; exact stripGaps_none_iff p0 rest, ?_, ?_⟩
    · intro r hr
      have hshort : ∀ p ∈ p0 :: rest, p0.2.length ≤ p.2.length := by
        by_contra hc
        push_neg at hc
        obtain ⟨p, hp, hlt⟩ := hc
        rw [(stripGaps_none_iff p0 rest).mpr ⟨p, hp, hlt⟩] at hr
        exact Option.noConfusion hr
      rw [stripGaps_some_eq p0 rest hshort] at hr
      rw [← Option.some.inj hr, hhl]
      apply List.map_congr_left
      intro p hp
      have hsplit := keepOutside_split (gapColumns (p0 :: rest) p0.2.length) p0.2.length
        p.2 (hshort p hp) (fun c hc => gapColumns_lt hc)
      rw [hsplit]
    · refine ⟨[("a", "AB".data), ("b", "A-C-".data)],
        [("a", ['A']), ("b", ['A', 'C', '-'])], by decide,
        ("a", ['A']), ("b", ['A', 'C', '-']), by decide, by decide, by decide⟩

/-- Witness for C10 at a concrete ragged alignment. -/
theorem claim_C10_witness :
    ([("a", "AB".data), ("b", "A-C-".data)] : MsaDict) ≠ [] ∧
    (stripGaps [("a", "AB".data), ("b", "A-C-".data)] = none ↔
      ∃ p ∈ ([("a", "AB".data), ("b", "A-C-".data)] : MsaDict),
        p.2.length < headLen [("a", "AB".data), ("b", "A-C-".data)]) :=
  ⟨by decide, (claim_C10_ragged_rows _ (by decide)).1⟩

/-- C6: applying `_strip_gaps` twice yields the same result as applying it
once (also through the `None` guard); in particular an alignment of common
length `L` with no gap columns is returned unchanged. -/
theorem claim_C6_idempotent :
    (∀ o : Option MsaDict, strip_gaps (strip_gaps o) = strip_gaps o) ∧
    (∀ (msa : MsaDict) (L : Nat), uniformLength msa L → gapColumns msa L = [] →
      stripGaps msa = some msa) := by
  constructor
  · intro o
    cases o with
    | none => rfl
    | some msa =>
      show strip_gaps (stripGaps msa) = stripGaps msa
      cases h : stripGaps msa with
      | none => rfl
      | some r =>
        show stripGaps r = some r
        exact stripGaps_fix msa r h
  · intro msa L hu hcols
    obtain ⟨hne, hulen⟩ := hu
    cases msa with
    | nil => exact absurd rfl hne
    | cons p0 rest =>
      have hL0 : p0.2.length = L := hulen p0 (List.mem_cons_self p0 rest)
      have hshort : ∀ p ∈ p0 :: rest, p0.2.length ≤ p.2.length := by
        intro p hp
        rw [hL0, hulen p hp]
      rw [stripGaps_some_eq p0 rest hshort, hL0, hcols]
      congr 1
      refine (List.map_congr_left ?_).trans (List.map_id _)
      intro q _
      show (q.1, keepOutside ([] : List Nat) q.2) = q
      unfold keepOutside
      rw [keepFrom_all_lt]
      · simp

/-- Witness for C6 at concrete alignments. -/
theorem claim_C6_witness :
    strip_gaps (strip_gaps (some [("g", "A-G".data)])) =
      strip_gaps (some [("g", "A-G".data)]) ∧
    ((([("x", "AT".data), ("y", "GC".data)] : MsaDict) ≠ [] ∧
      ∀ p ∈ ([("x", "AT".data), ("y", "GC".data)] : MsaDict), p.2.length = 2) ∧
      gapColumns [("x", "AT".data), ("y", "GC".data)] 2 = [] ∧
      stripGaps [("x", "AT".data), ("y", "GC".data)] =
        some [("x", "AT".data), ("y", "GC".data)]) :=
  ⟨claim_C6_idempotent.1 _,
    ⟨by decide, by decide⟩, by decide,
    claim_C6_idempotent.2 _ 2 ⟨by decide, by decide⟩ (by decide)⟩

/-- C5 counterexample: `_strip_gaps` mutates its argument dict, so after a
call on an alignment with a gap column the input no longer holds its
original sequences. -/
theorem claim_C5_counterexample :
    stripGapsPost [("g", ['A', '-'])] ≠ [("g", ['A', '-'])] := by decide

/-- C5 amended: `_strip_gaps` is not pure in the claimed sense — it mutates
the input dict in place, so after a successful call the input holds exactly
the stripped (returned) alignment rather than its original sequences, and
after a failed call it is unchanged; the identifier list of the input is
preserved in all cases. -/
theorem claim_C5_amended_mutation (msa : MsaDict) :
    (stripGapsPost msa).map Prod.fst = msa.map Prod.fst ∧
    (∀ r, stripGaps msa = some r → stripGapsPost msa = r) ∧
    (stripGaps msa = none → stripGapsPost msa = msa) := by
  refine ⟨?_, ?_, ?_⟩
  · unfold stripGapsPost
    cases h : stripGaps msa with
    | none => rfl
    | some r =>
      cases msa with
      | nil => simp [stripGaps] at h
      | cons p0 rest =>
        have hshort : ∀ p ∈ p0 :: rest, p0.2.length ≤ p.2.length := by
          by_contra hc
          push_neg at hc
          obtain ⟨p, hp, hlt⟩ := hc
          rw [(stripGaps_none_iff p0 rest).mpr ⟨p, hp, hlt⟩] at h
          exact Option.noConfusion h
        rw [stripGaps_some_eq p0 rest hshort] at h
        rw [← Option.some.inj h, List.map_map]
        rfl
  · intro r hr
    unfold stripGapsPost
    rw [hr]
  · intro hr
    unfold stripGapsPost
    rw [hr]

/-- Witness for C5 (amended) at a concrete input. -/
theorem claim_C5_witness :
    stripGaps [("g", ['A', '-'])] = some [("g", ['A'])] ∧
    stripGapsPost [("g", ['A', '-'])] = [("g", ['A'])] :=
  ⟨by decide, (claim_C5_amended_mutation [("g", ['A', '-'])]).2.1 [("g", ['A'])] (by decide)⟩

/-- C7: back-translation produces no result at all (aborting before any
per-sequence output) exactly when the protein alignment does not have one
common row length — that is, when there is no `L` with the alignment
non-empty and all rows of length `L`; conversely it never aborts on this
condition for an alignment of common length `L`. -/
theorem claim_C7_length_mismatch_abort (protein nuc : MsaDict) :
    nucleotide_msa_from_protein_msa protein nuc = none ↔
      ¬ ∃ L, uniformLength protein L := by
  unfold nucleotide_msa_from_protein_msa
  by_cases h : ((protein.map fun p => p.2.length).dedup).length = 1
  · rw [if_pos h]
    have hu : ∃ L, uniformLength protein L := by
      obtain ⟨hne, a, ha⟩ := uniform_of_dedup_len_one h
      refine ⟨a, ?_, fun p hp => ha _ (List.mem_map.mpr ⟨p, hp, rfl⟩)⟩
      intro he
      rw [he] at hne
      exact hne rfl
    exact iff_of_false (by simp) (by simpa using hu)
  · rw [if_neg h]
    refine iff_of_true rfl ?_
    rintro ⟨L, hne, hu⟩
    apply h
    have hmapne : protein.map (fun p => p.2.length) ≠ [] := by
      intro he
      exact hne (List.map_eq_nil_iff.mp he)
    have hall : ∀ x ∈ protein.map (fun p => p.2.length), x = L := by
      intro x hx
      obtain ⟨p, hp, hpx⟩ := List.mem_map.mp hx
      rw [← hpx]
      exact hu p hp
    rw [dedup_eq_singleton_of_uniform hmapne hall]
    rfl

/-- C2: for a protein alignment of common row length `L` and a nucleotide
dict offering at least `3 × (non-gap column count)` characters for every
identifier it contains, back-translation succeeds, is keyed by exactly the
protein-alignment identifiers that have a nucleotide entry (in order), and
every output row has length exactly `3 L`. -/
theorem claim_C2_backtranslation_length (protein nuc : MsaDict) (L : Nat)
    (hu : uniformLength protein L)
    (hnuc : ∀ p ∈ protein, (alookup p.1 nuc).isSome = true →
      3 * p.2.countP (fun c => decide (c ≠ '-')) ≤ ((alookup p.1 nuc).getD []).length) :
    ∃ r, nucleotide_msa_from_protein_msa protein nuc = some r ∧
      r.map Prod.fst = (protein.filter (fun p => (alookup p.1 nuc).isSome)).map Prod.fst ∧
      ∀ p ∈ r, p.2.length = 3 * L := by
  obtain ⟨hne, hulen⟩ := hu
  have hmapne : protein.map (fun p => p.2.length) ≠ [] := by
    intro he
    exact hne (List.map_eq_nil_iff.mp he)
  have hall : ∀ x ∈ protein.map (fun p => p.2.length), x = L := by
    intro x hx
    obtain ⟨p, hp, hpx⟩ := List.mem_map.mp hx
    rw [← hpx]
    exact hulen p hp
  have hded : ((protein.map fun p => p.2.length).dedup).length = 1 := by
    rw [dedup_eq_singleton_of_uniform hmapne hall]
    rfl
  refine ⟨_, by rw [nucleotide_msa_from_protein_msa, if_pos hded], ?_, ?_⟩
  · exact backTranslate_keys nuc protein
  · intro q hq
    obtain ⟨p, hp, hfp⟩ := List.mem_filterMap.mp hq
    cases h : alookup p.1 nuc with
    | none =>
      rw [h] at hfp
      exact Option.noConfusion hfp
    | some ns =>
      rw [h] at hfp
      have hq2 : q.2 = backTranslateSeq p.2 ns := by
        rw [← Option.some.inj hfp]
      have hbound : 3 * p.2.countP (fun c => decide (c ≠ '-')) ≤ ns.length := by
        have := hnuc p hp (by rw [h]; rfl)
        rw [h] at this
        exact this
      rw [hq2, backTranslateSeq_length p.2 ns hbound, hulen p hp]

/-- Witness for C2: the end-to-end example of the specification. -/
theorem claim_C2_witness :
    ((([("g1", "M-K".data), ("g2", "MAK".data)] : MsaDict) ≠ [] ∧
      ∀ p ∈ ([("g1", "M-K".data), ("g2", "MAK".data)] : MsaDict), p.2.length = 3) ∧
     (∀ p ∈ ([("g1", "M-K".data), ("g2", "MAK".data)] : MsaDict),
       (alookup p.1 [("g1", "ATGAAA".data), ("g2", "ATGGCAAAA".data)]).isSome = true →
       3 * p.2.countP (fun c => decide (c ≠ '-')) ≤
         ((alookup p.1 [("g1", "ATGAAA".data), ("g2", "ATGGCAAAA".data)]).getD []).length)) ∧
    (∃ r, nucleotide_msa_from_protein_msa [("g1", "M-K".data), ("g2", "MAK".data)]
        [("g1", "ATGAAA".data), ("g2", "ATGGCAAAA".data)] = some r ∧
      r.map Prod.fst = (([("g1", "M-K".data), ("g2", "MAK".data)] : MsaDict).filter
        (fun p => (alookup p.1 [("g1", "ATGAAA".data), ("g2", "ATGGCAAAA".data)]).isSome)).map
          Prod.fst ∧
      ∀ p ∈ r, p.2.length = 3 * 3) :=
  ⟨⟨⟨by decide, by decide⟩, by decide⟩,
    claim_C2_backtranslation_length _ _ 3 ⟨by decide, by decide⟩ (by decide)⟩

/-- C3 evaluation at the failing input: a uniform, non-empty protein
alignment none of whose identifiers occurs in the nucleotide dict makes
back-translation return an empty dict, upon which the pipeline raises an
uncaught `IndexError` at `len(list(nucleotide_msa.values())[0])` instead of
returning the absent result the claim requires. -/
theorem claim_C3_crash_eval :
    multiple_sequence_aligment_nucleotide (some [("g1", ['M'])]) [] 100 =
      PipelineOutcome.crashed := rfl

/-- C4: whenever the pipeline accepts, the serialized output is exactly the
header line `"\t{count}\t{stripped length}\n"` followed, for each identifier
of the emitted (stripped) alignment in iteration order, by one line holding
the identifier and one line holding its aligned nucleotide sequence, and
nothing else. -/
theorem claim_C4_serialized_output (src : Option MsaDict) (nuc : MsaDict)
    (min_length : Nat) (out : String) (l ls : Nat)
    (st : List (String × List (String × (ℚ × ℚ))))
    (hacc : multiple_sequence_aligment_nucleotide src nuc min_length =
      PipelineOutcome.accepted out l ls st) :
    ∃ protein nucMsa stripped, src = some protein ∧
      nucleotide_msa_from_protein_msa protein nuc = some nucMsa ∧
      stripGaps nucMsa = some stripped ∧
      headLen stripped = ls ∧
      out = "\t" ++ toString stripped.length ++ "\t" ++ toString ls ++ "\n" ++
        bodyConcat stripped := by
  cases src with
  | none => exact PipelineOutcome.noConfusion hacc
  | some protein =>
    cases hbt : nucleotide_msa_from_protein_msa protein nuc with
    | none =>
      simp only [multiple_sequence_aligment_nucleotide, hbt] at hacc
      exact PipelineOutcome.noConfusion hacc
    | some nucMsa =>
      cases nucMsa with
      | nil =>
        simp only [multiple_sequence_aligment_nucleotide, hbt] at hacc
        exact PipelineOutcome.noConfusion hacc
      | cons q0 qrest =>
        simp only [multiple_sequence_aligment_nucleotide, hbt] at hacc
        cases hsg : stripGaps (q0 :: qrest) with
        | none =>
          simp only [hsg] at hacc
          exact PipelineOutcome.noConfusion hacc
        | some stripped =>
          simp only [hsg] at hacc
          split at hacc
          · exact PipelineOutcome.noConfusion hacc
          · injection hacc with h1 h2 h3 h4
            refine ⟨protein, q0 :: qrest, stripped, rfl, hbt, hsg, h3, ?_⟩
            rw [← h1, ← h3, serializeMsa_eq]

/-- Witness for C4: the specification's end-to-end example, accepted with
raw length 9, stripped length 6, and the exact serialized bytes. -/
theorem claim_C4_witness :
    multiple_sequence_aligment_nucleotide
        (some [("g1", "M-K".data), ("g2", "MAK".data)])
        [("g1", "ATGAAA".data), ("g2", "ATGGCAAAA".data)] 1 =
      PipelineOutcome.accepted
        (serializeMsa [("g1", "ATGAAA".data), ("g2", "ATGAAA".data)]) 9 6
        (pairwise_alignment_stats [("g1", "ATG---AAA".data), ("g2", "ATGGCAAAA".data)]) ∧
    serializeMsa [("g1", "ATGAAA".data), ("g2", "ATGAAA".data)] =
      "\t2\t6\ng1\nATGAAA\ng2\nATGAAA\n" ∧
    (∃ protein nucMsa stripped,
      (some [("g1", "M-K".data), ("g2", "MAK".data)] : Option MsaDict) = some protein ∧
      nucleotide_msa_from_protein_msa protein
        [("g1", "ATGAAA".data), ("g2", "ATGGCAAAA".data)] = some nucMsa ∧
      stripGaps nucMsa = some stripped ∧
      headLen stripped = 6 ∧
      serializeMsa [("g1", "ATGAAA".data), ("g2", "ATGAAA".data)] =
        "\t" ++ toString stripped.length ++ "\t" ++ toString 6 ++ "\n" ++
          bodyConcat stripped) :=
  ⟨rfl, by decide, claim_C4_serialized_output _ _ 1 _ 9 6 _ rfl⟩

/-- C8: the stats-matrix entry for the self-pair of any identifier whose
sequence is non-empty and gap-free has identity `1.0` and coverage `1.0`. -/
theorem claim_C8_selfpair_identity (msa : MsaDict) (hnd : (msa.map Prod.fst).Nodup)
    (i : String) (si : GSeq) (hi : (i, si) ∈ msa) (hne : si ≠ []) (hgap : '-' ∉ si) :
    statsLookup (pairwise_alignment_stats msa) i i = some (1, 1) := by
  unfold pairwise_alignment_stats
  rw [statsRows_lookup (sortedSeqs msa) (sortedSeqs_pairwise hnd) i i si si
    (sortedSeqs_mem hnd hi) (sortedSeqs_mem hnd hi) (strLe_refl i)]
  rw [statsPair_self i si hne hgap]

/-- Witness for C8 at a concrete two-family alignment (given unsorted). -/
theorem claim_C8_witness :
    (([("g2", "AC".data), ("g1", "AG".data)] : MsaDict).map Prod.fst).Nodup ∧
    ("g1", "AG".data) ∈ ([("g2", "AC".data), ("g1", "AG".data)] : MsaDict) ∧
    "AG".data ≠ [] ∧ '-' ∉ "AG".data ∧
    statsLookup (pairwise_alignment_stats [("g2", "AC".data), ("g1", "AG".data)])
      "g1" "g1" = some (1, 1) :=
  ⟨by decide, by decide, by decide, by decide,
    claim_C8_selfpair_identity _ (by decide) "g1" "AG".data (by decide) (by decide)
      (by decide)⟩

/-- C9: for identifiers `i ≤ j` (lexicographically), if the pair-local
strip fails or yields stripped length zero, the recorded entry for `(i, j)`
is exactly `(0.0, 0.0)`, and the engine still records an entry for every
pair `(i', j')` with `i' ≤ j'`. -/
theorem claim_C9_zero_fallback (msa : MsaDict) (hnd : (msa.map Prod.fst).Nodup)
    (i j : String) (si sj : GSeq) (hi : (i, si) ∈ msa) (hj : (j, sj) ∈ msa)
    (hij : strLe i j = true)
    (hfail : stripGaps (pairDict i j si sj) = none ∨
      (stripGaps (pairDict i j si sj)).bind (alookup i) = some []) :
    statsLookup (pairwise_alignment_stats msa) i j = some (0, 0) ∧
    ∀ (i' j' : String) (si' sj' : GSeq), (i', si') ∈ msa → (j', sj') ∈ msa →
      strLe i' j' = true →
      ∃ v, statsLookup (pairwise_alignment_stats msa) i' j' = some v := by
  constructor
  · unfold pairwise_alignment_stats
    rw [statsRows_lookup (sortedSeqs msa) (sortedSeqs_pairwise hnd) i j si sj
      (sortedSeqs_mem hnd hi) (sortedSeqs_mem hnd hj) hij]
    rw [statsPair_zero_of i j si sj hfail]
  · intro i' j' si' sj' hi' hj' hij'
    refine ⟨statsPair i' j' si' sj', ?_⟩
    unfold pairwise_alignment_stats
    exact statsRows_lookup (sortedSeqs msa) (sortedSeqs_pairwise hnd) i' j' si' sj'
      (sortedSeqs_mem hnd hi') (sortedSeqs_mem hnd hj') hij'

/-- Witness for C9: a pair whose pair-local strip removes every column. -/
theorem claim_C9_witness :
    (([("a", ['-']), ("b", ['A'])] : MsaDict).map Prod.fst).Nodup ∧
    ("a", ['-']) ∈ ([("a", ['-']), ("b", ['A'])] : MsaDict) ∧
    ("b", ['A']) ∈ ([("a", ['-']), ("b", ['A'])] : MsaDict) ∧
    strLe "a" "b" = true ∧
    (stripGaps (pairDict "a" "b" ['-'] ['A'])).bind (alookup "a") = some [] ∧
    statsLookup (pairwise_alignment_stats [("a", ['-']), ("b", ['A'])]) "a" "b" =
      some (0, 0) :=
  ⟨by decide, by decide, by decide, by decide, by decide,
    (claim_C9_zero_fallback _ (by decide) "a" "b" ['-'] ['A'] (by decide) (by decide)
      (by decide) (Or.inr (by decide))).1⟩
